import Mathlib

/-
Verification development for two reth services:
  crates/net/network/src/eth_requests.rs   (eth request handler)
  crates/payload/builder/src/service.rs    (payload builder service)
The Rust code is shallowly embedded: u64 arithmetic is modelled on Nat with
explicit wraparound where the source performs unchecked machine addition,
fallible storage calls are modelled with Except, and the stateful service
loop is modelled as an explicit state-transition function.
-/

namespace RethVerify

/-! ### eth_requests.rs: constants -/

/-- MAX_RECEIPTS_SERVE from eth_requests.rs -/
def MAX_RECEIPTS_SERVE : Nat := 1024

/-- MAX_HEADERS_SERVE from eth_requests.rs -/
def MAX_HEADERS_SERVE : Nat := 1024

/-- MAX_BODIES_SERVE from eth_requests.rs -/
def MAX_BODIES_SERVE : Nat := 1024

/-- SOFT_RESPONSE_LIMIT from eth_requests.rs: 2 MiB -/
def SOFT_RESPONSE_LIMIT : Nat := 2 * 1024 * 1024

/-- Number of values of the u64 machine type; u64 values are the naturals below this. -/
def U64_SIZE : Nat := 2 ^ 64

/-! ### eth_requests.rs: data model -/

/-- A block hash, opaque to the handler; modelled as a natural number token. -/
abbrev BlockHash := Nat

/-- alloy BlockHashOrNumber: a chain position given either by hash or by number. -/
inductive BlockHashOrNumber where
  | hash (h : BlockHash)
  | number (n : Nat)
deriving DecidableEq, Repr

/-- HeadersDirection of the GetBlockHeaders request. -/
inductive HeadersDirection where
  | rising
  | falling
deriving DecidableEq, Repr

/-- The fields of a block header the handler reads: number (u64), parent hash,
and the alloy_rlp encoded length reported by Encodable, modelled as a field. -/
structure Header where
  number : Nat
  parent_hash : BlockHash
  encLen : Nat
deriving DecidableEq, Repr

/-- A block body; the handler only reads its Encodable length. -/
structure BlockBody where
  encLen : Nat
deriving DecidableEq, Repr

/-- A block; the handler only extracts the body by move (into_body). -/
structure ChainBlock where
  body : BlockBody
deriving DecidableEq, Repr

/-- A receipt, opaque to the handler; modelled as a token. -/
abbrev Receipt := Nat

/-- GetBlockHeaders request: start (hash or number), limit (u64),
skip (u32, cast to u64 by the handler), direction. -/
structure GetBlockHeaders where
  start_block : BlockHashOrNumber
  limit : Nat
  skip : Nat
  direction : HeadersDirection
deriving DecidableEq, Repr

/-- The storage error type; its content is irrelevant because every call site
unwraps with unwrap_or_default. -/
inductive ProviderError where
  | storage
deriving DecidableEq, Repr

/-- RequestResult from reth_network_p2p: the result kind wrapping every reply. -/
abbrev RequestResult (α : Type) := Except ProviderError α

/-- The chain-store capability (BlockReader) used by the handler; every method
returns Result of Option, mirroring the reth provider signatures. -/
structure Client where
  block_hash : Nat → Except ProviderError (Option BlockHash)
  header_by_hash_or_number :
    BlockHashOrNumber → Except ProviderError (Option Header)
  block_by_hash : BlockHash → Except ProviderError (Option ChainBlock)
  receipts_by_block :
    BlockHashOrNumber → Except ProviderError (Option (List Receipt))

/-- Rust Result::unwrap_or_default on a Result of Option: an error collapses to
the default value none. -/
def unwrapOrDefault {ε α : Type} : Except ε (Option α) → Option α
  | .ok v => v
  | .error _ => none

/-! ### eth_requests.rs: headers traversal -/

/-- u64 checked_add. -/
def checkedAdd (a b : Nat) : Option Nat :=
  if a + b < U64_SIZE then some (a + b) else none

/-- u64 checked_sub. -/
def checkedSub (a b : Nat) : Option Nat :=
  if b ≤ a then some (a - b) else none

/-- The Rising advance of get_headers_response:
(header.number() + 1).checked_add(skip).  The increment is an unchecked u64
addition in the source and is therefore modelled with wraparound. -/
def risingNext (header : Header) (skip : Nat) : Option Nat :=
  checkedAdd ((header.number + 1) % U64_SIZE) skip

/-- The Falling advance with skip > 0:
header.number().checked_sub(1).and_then(|num| num.checked_sub(skip)). -/
def fallingNextSkip (header : Header) (skip : Nat) : Option Nat :=
  (checkedSub header.number 1).bind (fun num => checkedSub num skip)

/-- The direction match of get_headers_response: computes the next block
reference, or none where the source breaks out of the loop. -/
def nextBlock (direction : HeadersDirection) (skip : Nat) (header : Header) :
    Option BlockHashOrNumber :=
  match direction with
  | .rising => (risingNext header skip).map .number
  | .falling =>
    if skip > 0 then (fallingNextSkip header skip).map .number
    else some (.hash header.parent_hash)

/-- The for-loop of get_headers_response.  fuel is the remaining iteration
count of for _ in 0..limit; count is headers.len() before this iteration and
total is total_bytes.  The advance is computed before the push, so a failed
advance drops the current header, exactly as the break in the source does;
the count and byte checks run after the push. -/
def headersLoop (c : Client) (direction : HeadersDirection) (skip : Nat) :
    Nat → BlockHashOrNumber → Nat → Nat → List Header
  | 0, _, _, _ => []
  | fuel + 1, block, count, total_bytes =>
    match unwrapOrDefault (c.header_by_hash_or_number block) with
    | none => []
    | some header =>
      match nextBlock direction skip header with
      | none => []
      | some next =>
        let total' := total_bytes + header.encLen
        header ::
          (if MAX_HEADERS_SERVE ≤ count + 1 ∨ SOFT_RESPONSE_LIMIT < total' then
            []
          else headersLoop c direction skip fuel next (count + 1) total')

/-- get_headers_response: resolve the start to a hash (empty response if a
numeric start has no known hash), then run the bounded traversal. -/
def get_headers_response (c : Client) (request : GetBlockHeaders) :
    List Header :=
  match request.start_block with
  | .hash start =>
    headersLoop c request.direction request.skip request.limit (.hash start) 0 0
  | .number num =>
    match unwrapOrDefault (c.block_hash num) with
    | none => []
    | some h =>
      headersLoop c request.direction request.skip request.limit (.hash h) 0 0

/-- Reply value sent by on_headers_request: always the Ok variant. -/
def on_headers_request (c : Client) (request : GetBlockHeaders) :
    RequestResult (List Header) :=
  .ok (get_headers_response c request)

/-! ### eth_requests.rs: bodies and receipts -/

/-- The accumulation loop of on_bodies_request over the requested hashes;
count is bodies.len() before this iteration and total is total_bytes. -/
def bodiesLoop (c : Client) : List BlockHash → Nat → Nat → List BlockBody
  | [], _, _ => []
  | hash :: rest, count, total_bytes =>
    match unwrapOrDefault (c.block_by_hash hash) with
    | none => []
    | some block =>
      let body := block.body
      let total' := total_bytes + body.encLen
      body ::
        (if MAX_BODIES_SERVE ≤ count + 1 ∨ SOFT_RESPONSE_LIMIT < total' then
          []
        else bodiesLoop c rest (count + 1) total')

/-- The bodies vector computed by on_bodies_request. -/
def bodies_response (c : Client) (request : List BlockHash) : List BlockBody :=
  bodiesLoop c request 0 0

/-- Reply value sent by on_bodies_request: always the Ok variant. -/
def on_bodies_request (c : Client) (request : List BlockHash) :
    RequestResult (List BlockBody) :=
  .ok (bodies_response c request)

/-- The accumulation loop of get_receipts_response; transform_fn is the
per-block projection (bloom attach or identity) and listLen the Encodable
length of the transformed per-block vector. -/
def receiptsLoop {T : Type} (c : Client) (transform_fn : List Receipt → List T)
    (listLen : List T → Nat) : List BlockHash → Nat → Nat → List (List T)
  | [], _, _ => []
  | hash :: rest, count, total_bytes =>
    match unwrapOrDefault (c.receipts_by_block (.hash hash)) with
    | none => []
    | some receipts_by_block =>
      let transformed := transform_fn receipts_by_block
      let total' := total_bytes + listLen transformed
      transformed ::
        (if MAX_RECEIPTS_SERVE ≤ count + 1 ∨ SOFT_RESPONSE_LIMIT < total' then
          []
        else receiptsLoop c transform_fn listLen rest (count + 1) total')

/-- get_receipts_response, generic over the transform exactly as the source. -/
def get_receipts_response {T : Type} (c : Client)
    (transform_fn : List Receipt → List T) (listLen : List T → Nat)
    (request : List BlockHash) : List (List T) :=
  receiptsLoop c transform_fn listLen request 0 0

/-- Reply value sent by on_receipts_request: always the Ok variant. -/
def on_receipts_request {T : Type} (c : Client)
    (transform_fn : List Receipt → List T) (listLen : List T → Nat)
    (request : List BlockHash) : RequestResult (List (List T)) :=
  .ok (get_receipts_response c transform_fn listLen request)

/-- The client whose every storage call succeeds with the value the original
client yields after unwrap_or_default: errors replaced by absent results. -/
def errToNone (c : Client) : Client where
  block_hash := fun n => .ok (unwrapOrDefault (c.block_hash n))
  header_by_hash_or_number :=
    fun r => .ok (unwrapOrDefault (c.header_by_hash_or_number r))
  block_by_hash := fun h => .ok (unwrapOrDefault (c.block_by_hash h))
  receipts_by_block := fun r => .ok (unwrapOrDefault (c.receipts_by_block r))

/-- Sum of the encoded lengths of a list of headers. -/
def sumHeaderBytes (l : List Header) : Nat := (l.map Header.encLen).sum

/-- Sum of the encoded lengths of a list of bodies. -/
def sumBodyBytes (l : List BlockBody) : Nat := (l.map BlockBody.encLen).sum

/-- Sum of the encoded lengths of a list of transformed receipt groups. -/
def sumReceiptBytes {T : Type} (listLen : List T → Nat) (l : List (List T)) :
    Nat := (l.map listLen).sum

/-! ### service.rs: data model -/

/-- An opaque, equality-comparable payload identifier. -/
abbrev PayloadId := Nat

/-- Payload builder attributes: opaque to the service except that they yield a
payload id and a parent block reference. -/
structure PayloadAttributes where
  pid : PayloadId
  parent : Nat
deriving DecidableEq, Repr

/-- A built payload, opaque to the service; modelled as a token. -/
abbrev BuiltPayload := Nat

/-- PayloadBuilderError, opaque to the state machine. -/
inductive PayloadBuilderError where
  | failure
deriving DecidableEq, Repr

/-- PayloadKind passed to resolve_kind. -/
inductive PayloadKind where
  | earliest
  | waitForPending
deriving DecidableEq, Repr

/-- KeepPayloadJobAlive: the verdict resolve_kind returns alongside the future. -/
inductive KeepPayloadJobAlive where
  | yes
  | no
deriving DecidableEq, Repr

/-- The payload future handed back by resolve; its completion happens outside
the state machine, so it is modelled as an opaque token. -/
abbrev ResolveFut := Nat

/-- A payload job as seen by the service: it supports the best_payload query
and resolve_kind, which yields a future and a keep-alive verdict.  Polling
outcomes are supplied externally by a poll oracle, see JobPoll. -/
structure PayloadJob where
  best_payload : Except PayloadBuilderError BuiltPayload
  resolveFut : PayloadKind → ResolveFut
  resolveKeep : PayloadKind → KeepPayloadJobAlive

/-- An entry of the payload_jobs vector. -/
abbrev JobRec := PayloadJob × PayloadId

/-- Outcome of one poll of a job future. -/
inductive JobPoll where
  | readyOk
  | readyErr
  | pending
deriving DecidableEq, Repr

/-- The poll oracle: what Poll result a given job record produces in this pass. -/
abbrev PollFn := JobRec → JobPoll

/-- The job generator capability: new_payload_job. -/
abbrev Generator := PayloadAttributes → Except PayloadBuilderError PayloadJob

/-- A payload event broadcast by the service. -/
inductive PayloadEvent where
  | attributes (a : PayloadAttributes)
  | builtPayload (p : BuiltPayload)
deriving DecidableEq, Repr

/-- The mutable state of PayloadBuilderService: the active job vector, the
log of broadcast events, and the counters behind the job metrics.
new_payload_job_calls counts invocations of the generator. -/
structure ServiceState where
  payload_jobs : List JobRec
  events : List PayloadEvent
  initiated_jobs : Nat
  failed_jobs : Nat
  new_payload_job_calls : Nat

/-- The state of a freshly constructed service: no jobs, no events. -/
def initialState : ServiceState :=
  { payload_jobs := [], events := [], initiated_jobs := 0, failed_jobs := 0,
    new_payload_job_calls := 0 }

/-! ### service.rs: vector primitives -/

/-- The rearrangement Vec::swap_remove performs on the part of the vector
after the removed index: the last element moves into the freed slot, which
for that part means it moves to the front. -/
def swapTail {α : Type} : List α → List α
  | [] => []
  | x :: xs => (x :: xs).getLast (List.cons_ne_nil x xs) :: (x :: xs).dropLast

/-- Vec::swap_remove: remove the element at index i, returning it and the
vector in which the last element has been moved into the freed slot; none
when the index is out of bounds (the source never indexes out of bounds). -/
def swapRemove {α : Type} : List α → Nat → Option (α × List α)
  | [], _ => none
  | x :: xs, 0 => some (x, swapTail xs)
  | x :: xs, i + 1 => (swapRemove xs i).map (fun p => (p.1, x :: p.2))

/-- Iterator::position with an explicit running index. -/
def positionAux {α : Type} (p : α → Bool) : List α → Nat → Option Nat
  | [], _ => none
  | x :: xs, i => if p x then some i else positionAux p xs (i + 1)

/-- Iterator::position: index of the first element satisfying p. -/
def position {α : Type} (p : α → Bool) (l : List α) : Option Nat :=
  positionAux p l 0

/-! ### service.rs: operations -/

/-- contains_payload: whether a job with this id is in the active set. -/
def contains_payload (st : ServiceState) (id : PayloadId) : Bool :=
  st.payload_jobs.any (fun jr => jr.2 == id)

/-- best_payload query: find the job with this id and report its current best
payload; none when the id is unknown. -/
def best_payload (st : ServiceState) (id : PayloadId) :
    Option (Except PayloadBuilderError BuiltPayload) :=
  (st.payload_jobs.find? (fun jr => jr.2 == id)).map (fun jr => jr.1.best_payload)

/-- The BuildNewPayload command handling in poll: an id already in progress is
an idempotent success; otherwise the generator is invoked, and on success the
job is pushed and one Events::Attributes is broadcast. -/
def build_new_payload (gen : Generator) (st : ServiceState)
    (attr : PayloadAttributes) :
    ServiceState × Except PayloadBuilderError PayloadId :=
  let id := attr.pid
  if contains_payload st id then
    (st, .ok id)
  else
    match gen attr with
    | .ok job =>
      ({ st with
          payload_jobs := st.payload_jobs ++ [(job, id)],
          events := st.events ++ [.attributes attr],
          initiated_jobs := st.initiated_jobs + 1,
          new_payload_job_calls := st.new_payload_job_calls + 1 },
        .ok id)
    | .error err =>
      ({ st with
          failed_jobs := st.failed_jobs + 1,
          new_payload_job_calls := st.new_payload_job_calls + 1 },
        .error err)

/-- resolve: locate the job by position, call resolve_kind, swap_remove the
record when the verdict is KeepPayloadJobAlive::No, and hand the future out.
The wrapping of the future (metrics, BuiltPayload broadcast on completion)
happens when the caller awaits it and is outside this state machine. -/
def resolveStep (st : ServiceState) (id : PayloadId) (kind : PayloadKind) :
    ServiceState × Option ResolveFut :=
  match position (fun jr => jr.2 == id) st.payload_jobs with
  | none => (st, none)
  | some j =>
    match st.payload_jobs[j]? with
    | none => (st, none)
    | some jr =>
      if jr.1.resolveKeep kind == KeepPayloadJobAlive.no then
        match swapRemove st.payload_jobs j with
        | none => (st, some (jr.1.resolveFut kind))
        | some p =>
          ({ st with payload_jobs := p.2 }, some (jr.1.resolveFut kind))
      else (st, some (jr.1.resolveFut kind))

/-- The job-advancing loop of PayloadBuilderService::poll: iterate the index
downwards from the initial length, swap_remove each entry, poll it once, and
push it back only when it is still pending.  Returns the final vector and the
list of polled records in poll order. -/
def advanceLoop (pollFn : PollFn) :
    Nat → List JobRec → List JobRec × List JobRec
  | 0, jobs => (jobs, [])
  | idx + 1, jobs =>
    match swapRemove jobs idx with
    | none => (jobs, [])
    | some (jr, rest) =>
      let jobs' :=
        match pollFn jr with
        | .pending => rest ++ [jr]
        | _ => rest
      let next := advanceLoop pollFn idx jobs'
      (next.1, jr :: next.2)

/-- One full job-advancing pass over the current vector, with the failed-job
counter advanced once per errored poll. -/
def advance_jobs (pollFn : PollFn) (st : ServiceState) : ServiceState :=
  let next := advanceLoop pollFn st.payload_jobs.length st.payload_jobs
  { st with
      payload_jobs := next.1,
      failed_jobs :=
        st.failed_jobs + (next.2.filter (fun jr => pollFn jr == .readyErr)).length }

/-- The command protocol of the service. -/
inductive PayloadServiceCommand where
  | buildNewPayload (attr : PayloadAttributes)
  | bestPayload (id : PayloadId)
  | payloadAttributes (id : PayloadId)
  | resolve (id : PayloadId) (kind : PayloadKind)
  | subscribe

/-- State effect of processing one command in the drain loop of poll. -/
def applyCommand (gen : Generator) (st : ServiceState) :
    PayloadServiceCommand → ServiceState
  | .buildNewPayload attr => (build_new_payload gen st attr).1
  | .bestPayload _ => st
  | .payloadAttributes _ => st
  | .resolve id kind => (resolveStep st id kind).1
  | .subscribe => st

/-- An operation of the service loop: either a command from the channel or a
job-advancing pass. -/
inductive ServiceOp where
  | cmd (c : PayloadServiceCommand)
  | advance

/-- State effect of one service-loop operation. -/
def applyOp (gen : Generator) (pollFn : PollFn) (st : ServiceState) :
    ServiceOp → ServiceState
  | .cmd c => applyCommand gen st c
  | .advance => advance_jobs pollFn st

/-- Run the service over a sequence of operations. -/
def runOps (gen : Generator) (pollFn : PollFn) (st : ServiceState)
    (ops : List ServiceOp) : ServiceState :=
  ops.foldl (applyOp gen pollFn) st

/-- The id multiset of the active job set. -/
def jobIds (st : ServiceState) : List PayloadId :=
  st.payload_jobs.map Prod.snd

/-- Whether a RequestResult is the Ok variant. -/
def requestIsOk {α : Type} : RequestResult α → Bool
  | .ok _ => true
  | .error _ => false

/-! ### Concrete stores for scenario checks -/

/-- A store holding the chain 0 to 10: block i has hash 100 + i, and the
parent of block i is block i - 1 (the parent hash of block 0 is unknown to
the store).  Every header of block i encodes to encLenF i bytes. -/
def chainClient (encLenF : Nat → Nat) : Client where
  block_hash := fun n => .ok (if n ≤ 10 then some (100 + n) else none)
  header_by_hash_or_number := fun r =>
    .ok (match r with
      | .hash h =>
        if 100 ≤ h ∧ h ≤ 110 then
          some { number := h - 100, parent_hash := h - 1,
                 encLen := encLenF (h - 100) }
        else none
      | .number n =>
        if n ≤ 10 then
          some { number := n, parent_hash := 99 + n, encLen := encLenF n }
        else none)
  block_by_hash := fun h =>
    .ok (if 100 ≤ h ∧ h ≤ 110 then
        some { body := { encLen := encLenF (h - 100) } }
      else none)
  receipts_by_block := fun r =>
    .ok (match r with
      | .hash h => if 100 ≤ h ∧ h ≤ 110 then some [h - 100] else none
      | .number _ => none)

/-- A store holding a header whose u64 block number is the maximal one, under
hash 200, together with a block numbered 0. -/
def overflowClient : Client where
  block_hash := fun _ => .ok none
  header_by_hash_or_number := fun r =>
    .ok (match r with
      | .hash h =>
        if h = 200 then
          some { number := U64_SIZE - 1, parent_hash := 0, encLen := 10 }
        else none
      | .number n =>
        if n = 0 then some { number := 0, parent_hash := 7, encLen := 10 }
        else none)
  block_by_hash := fun _ => .ok none
  receipts_by_block := fun _ => .ok none

/-! ### Concrete service objects for scenario checks -/

/-- A job whose resolve verdict is KeepPayloadJobAlive::No. -/
def job0 : PayloadJob :=
  { best_payload := .ok 42, resolveFut := fun _ => 7,
    resolveKeep := fun _ => .no }

/-- A generator that always succeeds with job0. -/
def gen0 : Generator := fun _ => .ok job0

/-- A poll oracle: the job with id 1 stays pending, every other job is done. -/
def pollFn0 : PollFn := fun jr => if jr.2 == 1 then .pending else .readyOk

/-- Concrete payload attributes with id 5. -/
def attr0 : PayloadAttributes := { pid := 5, parent := 1 }

/-- A service state holding exactly the job (job0, 5). -/
def st0 : ServiceState :=
  { payload_jobs := [(job0, 5)], events := [], initiated_jobs := 0,
    failed_jobs := 0, new_payload_job_calls := 0 }

/-! ### Lemmas: response shaping budgets -/

theorem sumHeaderBytes_nil : sumHeaderBytes [] = 0 := rfl

theorem sumHeaderBytes_cons (h : Header) (l : List Header) :
    sumHeaderBytes (h :: l) = h.encLen + sumHeaderBytes l := by
  simp [sumHeaderBytes]

theorem sumBodyBytes_nil : sumBodyBytes [] = 0 := rfl

theorem sumBodyBytes_cons (b : BlockBody) (l : List BlockBody) :
    sumBodyBytes (b :: l) = b.encLen + sumBodyBytes l := by
  simp [sumBodyBytes]

theorem sumReceiptBytes_nil {T : Type} (lenT : List T → Nat) :
    sumReceiptBytes lenT [] = 0 := rfl

theorem sumReceiptBytes_cons {T : Type} (lenT : List T → Nat) (g : List T)
    (l : List (List T)) :
    sumReceiptBytes lenT (g :: l) = lenT g + sumReceiptBytes lenT l := by
  simp [sumReceiptBytes]

theorem headersLoop_length_le (c : Client) (d : HeadersDirection) (s : Nat) :
    ∀ (fuel : Nat) (block : BlockHashOrNumber) (count total : Nat),
      count < MAX_HEADERS_SERVE →
      count + (headersLoop c d s fuel block count total).length ≤
        MAX_HEADERS_SERVE := by
  intro fuel
  induction fuel with
  | zero =>
    intro block count total hc
    simp only [headersLoop, List.length_nil]
    omega
  | succ n ih =>
    intro block count total hc
    rw [headersLoop]
    split
    · simp only [List.length_nil]; omega
    · rename_i header hheader
      split
      · simp only [List.length_nil]; omega
      · rename_i next hnext
        by_cases hstop :
            MAX_HEADERS_SERVE ≤ count + 1 ∨
              SOFT_RESPONSE_LIMIT < total + header.encLen
        · simp only [if_pos hstop, List.length_cons, List.length_nil]
          omega
        · simp only [if_neg hstop, List.length_cons]
          have hc1 : count + 1 < MAX_HEADERS_SERVE := by omega
          have := ih next (count + 1) (total + header.encLen) hc1
          omega

theorem headersLoop_bytes_le (c : Client) (d : HeadersDirection) (s : Nat) :
    ∀ (fuel : Nat) (block : BlockHashOrNumber) (count total : Nat),
      total ≤ SOFT_RESPONSE_LIMIT →
      total + sumHeaderBytes (headersLoop c d s fuel block count total).dropLast ≤
        SOFT_RESPONSE_LIMIT := by
  intro fuel
  induction fuel with
  | zero =>
    intro block count total ht
    simpa [headersLoop, sumHeaderBytes] using ht
  | succ n ih =>
    intro block count total ht
    rw [headersLoop]
    split
    · simpa [sumHeaderBytes] using ht
    · rename_i header hheader
      split
      · simpa [sumHeaderBytes] using ht
      · rename_i next hnext
        by_cases hstop :
            MAX_HEADERS_SERVE ≤ count + 1 ∨
              SOFT_RESPONSE_LIMIT < total + header.encLen
        · simp only [if_pos hstop, List.dropLast_single]
          simpa [sumHeaderBytes] using ht
        · simp only [if_neg hstop]
          have ht' : total + header.encLen ≤ SOFT_RESPONSE_LIMIT := by omega
          have hrec := ih next (count + 1) (total + header.encLen) ht'
          cases hr : headersLoop c d s n next (count + 1) (total + header.encLen) with
          | nil => simpa [sumHeaderBytes] using ht
          | cons x xs =>
            rw [hr] at hrec
            rw [List.dropLast_cons₂, sumHeaderBytes_cons]
            omega

theorem bodiesLoop_length_le (c : Client) :
    ∀ (hs : List BlockHash) (count total : Nat),
      count < MAX_BODIES_SERVE →
      count + (bodiesLoop c hs count total).length ≤ MAX_BODIES_SERVE := by
  intro hs
  induction hs with
  | nil =>
    intro count total hc
    simp only [bodiesLoop, List.length_nil]
    omega
  | cons hash rest ih =>
    intro count total hc
    rw [bodiesLoop]
    split
    · simp only [List.length_nil]; omega
    · rename_i block hblock
      by_cases hstop :
          MAX_BODIES_SERVE ≤ count + 1 ∨
            SOFT_RESPONSE_LIMIT < total + block.body.encLen
      · simp only [if_pos hstop, List.length_cons, List.length_nil]
        omega
      · simp only [if_neg hstop, List.length_cons]
        have hc1 : count + 1 < MAX_BODIES_SERVE := by omega
        have := ih (count + 1) (total + block.body.encLen) hc1
        omega

theorem bodiesLoop_bytes_le (c : Client) :
    ∀ (hs : List BlockHash) (count total : Nat),
      total ≤ SOFT_RESPONSE_LIMIT →
      total + sumBodyBytes (bodiesLoop c hs count total).dropLast ≤
        SOFT_RESPONSE_LIMIT := by
  intro hs
  induction hs with
  | nil =>
    intro count total ht
    simpa [bodiesLoop, sumBodyBytes] using ht
  | cons hash rest ih =>
    intro count total ht
    rw [bodiesLoop]
    split
    · simpa [sumBodyBytes] using ht
    · rename_i block hblock
      by_cases hstop :
          MAX_BODIES_SERVE ≤ count + 1 ∨
            SOFT_RESPONSE_LIMIT < total + block.body.encLen
      · simp only [if_pos hstop, List.dropLast_single]
        simpa [sumBodyBytes] using ht
      · simp only [if_neg hstop]
        have ht' : total + block.body.encLen ≤ SOFT_RESPONSE_LIMIT := by omega
        have hrec := ih (count + 1) (total + block.body.encLen) ht'
        cases hr : bodiesLoop c rest (count + 1) (total + block.body.encLen) with
        | nil => simpa [sumBodyBytes] using ht
        | cons x xs =>
          rw [hr] at hrec
          rw [List.dropLast_cons₂, sumBodyBytes_cons]
          omega

theorem receiptsLoop_length_le {T : Type} (c : Client)
    (tf : List Receipt → List T) (lenT : List T → Nat) :
    ∀ (hs : List BlockHash) (count total : Nat),
      count < MAX_RECEIPTS_SERVE →
      count + (receiptsLoop c tf lenT hs count total).length ≤
        MAX_RECEIPTS_SERVE := by
  intro hs
  induction hs with
  | nil =>
    intro count total hc
    simp only [receiptsLoop, List.length_nil]
    omega
  | cons hash rest ih =>
    intro count total hc
    rw [receiptsLoop]
    split
    · simp only [List.length_nil]; omega
    · rename_i grp hgrp
      by_cases hstop :
          MAX_RECEIPTS_SERVE ≤ count + 1 ∨
            SOFT_RESPONSE_LIMIT < total + lenT (tf grp)
      · simp only [if_pos hstop, List.length_cons, List.length_nil]
        omega
      · simp only [if_neg hstop, List.length_cons]
        have hc1 : count + 1 < MAX_RECEIPTS_SERVE := by omega
        have := ih (count + 1) (total + lenT (tf grp)) hc1
        omega

theorem receiptsLoop_bytes_le {T : Type} (c : Client)
    (tf : List Receipt → List T) (lenT : List T → Nat) :
    ∀ (hs : List BlockHash) (count total : Nat),
      total ≤ SOFT_RESPONSE_LIMIT →
      total + sumReceiptBytes lenT (receiptsLoop c tf lenT hs count total).dropLast ≤
        SOFT_RESPONSE_LIMIT := by
  intro hs
  induction hs with
  | nil =>
    intro count total ht
    simpa [receiptsLoop, sumReceiptBytes] using ht
  | cons hash rest ih =>
    intro count total ht
    rw [receiptsLoop]
    split
    · simpa [sumReceiptBytes] using ht
    · rename_i grp hgrp
      by_cases hstop :
          MAX_RECEIPTS_SERVE ≤ count + 1 ∨
            SOFT_RESPONSE_LIMIT < total + lenT (tf grp)
      · simp only [if_pos hstop, List.dropLast_single]
        simpa [sumReceiptBytes] using ht
      · simp only [if_neg hstop]
        have ht' : total + lenT (tf grp) ≤ SOFT_RESPONSE_LIMIT := by omega
        have hrec := ih (count + 1) (total + lenT (tf grp)) ht'
        cases hr : receiptsLoop c tf lenT rest (count + 1) (total + lenT (tf grp)) with
        | nil => simpa [sumReceiptBytes] using ht
        | cons x xs =>
          rw [hr] at hrec
          rw [List.dropLast_cons₂, sumReceiptBytes_cons]
          omega

theorem sum_map_take_le {α : Type} (f : α → Nat) (l : List α) (i : Nat) :
    ((l.take i).map f).sum ≤ (l.map f).sum := by
  conv_rhs => rw [← List.take_append_drop i l]
  rw [List.map_append, List.sum_append]
  exact Nat.le_add_right _ _

theorem take_eq_take_dropLast {α : Type} (l : List α) (i : Nat)
    (h : i < l.length) : l.take i = l.dropLast.take i := by
  rw [List.dropLast_eq_take, List.take_take]
  congr 1
  omega

theorem length_le_of_budget_crossed {α : Type} (f : α → Nat) (l : List α)
    (i : Nat) (hd : (l.dropLast.map f).sum ≤ SOFT_RESPONSE_LIMIT)
    (hi : SOFT_RESPONSE_LIMIT < ((l.take i).map f).sum) : l.length ≤ i := by
  by_contra hcon
  push_neg at hcon
  rw [take_eq_take_dropLast l i hcon] at hi
  have := sum_map_take_le f l.dropLast i
  omega

/-! ### Lemmas: storage errors behave as absent results -/

theorem headersLoop_errToNone (c : Client) (d : HeadersDirection) (s : Nat) :
    ∀ (fuel : Nat) (block : BlockHashOrNumber) (count total : Nat),
      headersLoop (errToNone c) d s fuel block count total =
        headersLoop c d s fuel block count total := by
  intro fuel
  induction fuel with
  | zero => intro block count total; rfl
  | succ n ih =>
    intro block count total
    rw [headersLoop, headersLoop]
    have hsc : unwrapOrDefault ((errToNone c).header_by_hash_or_number block) =
        unwrapOrDefault (c.header_by_hash_or_number block) := rfl
    rw [hsc]
    cases unwrapOrDefault (c.header_by_hash_or_number block) with
    | none => rfl
    | some header =>
      dsimp only
      cases nextBlock d s header with
      | none => rfl
      | some next =>
        dsimp only
        by_cases hstop :
            MAX_HEADERS_SERVE ≤ count + 1 ∨
              SOFT_RESPONSE_LIMIT < total + header.encLen
        · simp only [if_pos hstop]
        · simp only [if_neg hstop, ih]

theorem bodiesLoop_errToNone (c : Client) :
    ∀ (hs : List BlockHash) (count total : Nat),
      bodiesLoop (errToNone c) hs count total = bodiesLoop c hs count total := by
  intro hs
  induction hs with
  | nil => intro count total; rfl
  | cons hash rest ih =>
    intro count total
    rw [bodiesLoop, bodiesLoop]
    have hsc : unwrapOrDefault ((errToNone c).block_by_hash hash) =
        unwrapOrDefault (c.block_by_hash hash) := rfl
    rw [hsc]
    cases unwrapOrDefault (c.block_by_hash hash) with
    | none => rfl
    | some block =>
      dsimp only
      by_cases hstop :
          MAX_BODIES_SERVE ≤ count + 1 ∨
            SOFT_RESPONSE_LIMIT < total + block.body.encLen
      · simp only [if_pos hstop]
      · simp only [if_neg hstop, ih]

theorem receiptsLoop_errToNone {T : Type} (c : Client)
    (tf : List Receipt → List T) (lenT : List T → Nat) :
    ∀ (hs : List BlockHash) (count total : Nat),
      receiptsLoop (errToNone c) tf lenT hs count total =
        receiptsLoop c tf lenT hs count total := by
  intro hs
  induction hs with
  | nil => intro count total; rfl
  | cons hash rest ih =>
    intro count total
    rw [receiptsLoop, receiptsLoop]
    have hsc : unwrapOrDefault ((errToNone c).receipts_by_block (.hash hash)) =
        unwrapOrDefault (c.receipts_by_block (.hash hash)) := rfl
    rw [hsc]
    cases unwrapOrDefault (c.receipts_by_block (.hash hash)) with
    | none => rfl
    | some grp =>
      dsimp only
      by_cases hstop :
          MAX_RECEIPTS_SERVE ≤ count + 1 ∨
            SOFT_RESPONSE_LIMIT < total + lenT (tf grp)
      · simp only [if_pos hstop]
      · simp only [if_neg hstop, ih]

theorem get_headers_response_errToNone (c : Client) (request : GetBlockHeaders) :
    get_headers_response (errToNone c) request = get_headers_response c request := by
  cases request with
  | mk sb limit skip dir =>
    cases sb with
    | hash h =>
      simp only [get_headers_response]
      exact headersLoop_errToNone c dir skip limit (.hash h) 0 0
    | number num =>
      simp only [get_headers_response]
      have hbh : unwrapOrDefault ((errToNone c).block_hash num) =
          unwrapOrDefault (c.block_hash num) := rfl
      rw [hbh]
      cases unwrapOrDefault (c.block_hash num) with
      | none => rfl
      | some hh => exact headersLoop_errToNone c dir skip limit (.hash hh) 0 0

theorem bodiesLoop_stops_at_missing (c : Client) (h : BlockHash)
    (hmiss : unwrapOrDefault (c.block_by_hash h) = none) :
    ∀ (pre post : List BlockHash) (count total : Nat),
      bodiesLoop c (pre ++ h :: post) count total =
        bodiesLoop c pre count total := by
  intro pre
  induction pre with
  | nil =>
    intro post count total
    simp only [List.nil_append]
    conv_lhs => rw [bodiesLoop]
    rw [hmiss]
    rfl
  | cons x rest ih =>
    intro post count total
    simp only [List.cons_append]
    rw [bodiesLoop, bodiesLoop]
    cases unwrapOrDefault (c.block_by_hash x) with
    | none => rfl
    | some block =>
      dsimp only
      by_cases hstop :
          MAX_BODIES_SERVE ≤ count + 1 ∨
            SOFT_RESPONSE_LIMIT < total + block.body.encLen
      · simp only [if_pos hstop]
      · simp only [if_neg hstop, ih]

theorem receiptsLoop_stops_at_missing {T : Type} (c : Client)
    (tf : List Receipt → List T) (lenT : List T → Nat) (h : BlockHash)
    (hmiss : unwrapOrDefault (c.receipts_by_block (.hash h)) = none) :
    ∀ (pre post : List BlockHash) (count total : Nat),
      receiptsLoop c tf lenT (pre ++ h :: post) count total =
        receiptsLoop c tf lenT pre count total := by
  intro pre
  induction pre with
  | nil =>
    intro post count total
    simp only [List.nil_append]
    conv_lhs => rw [receiptsLoop]
    rw [hmiss]
    rfl
  | cons x rest ih =>
    intro post count total
    simp only [List.cons_append]
    rw [receiptsLoop, receiptsLoop]
    cases unwrapOrDefault (c.receipts_by_block (.hash x)) with
    | none => rfl
    | some grp =>
      dsimp only
      by_cases hstop :
          MAX_RECEIPTS_SERVE ≤ count + 1 ∨
            SOFT_RESPONSE_LIMIT < total + lenT (tf grp)
      · simp only [if_pos hstop]
      · simp only [if_neg hstop, ih]

theorem headersLoop_stops_at_missing (c : Client) (d : HeadersDirection)
    (s : Nat) (block : BlockHashOrNumber)
    (hmiss : unwrapOrDefault (c.header_by_hash_or_number block) = none) :
    ∀ (fuel count total : Nat),
      headersLoop c d s (fuel + 1) block count total = [] := by
  intro fuel count total
  rw [headersLoop, hmiss]

theorem get_headers_response_missing_start (c : Client) (num : Nat)
    (limit s : Nat) (d : HeadersDirection)
    (hmiss : unwrapOrDefault (c.block_hash num) = none) :
    get_headers_response c
      { start_block := .number num, limit := limit, skip := s,
        direction := d } = [] := by
  simp only [get_headers_response]
  rw [hmiss]

/-! ### Lemmas: swap_remove and position -/

theorem swapTail_perm {α : Type} : ∀ (l : List α), (swapTail l).Perm l := by
  intro l
  cases l with
  | nil => exact List.Perm.refl _
  | cons x xs =>
    have hfull := List.dropLast_append_getLast (List.cons_ne_nil x xs)
    have hperm := (List.perm_append_singleton
      ((x :: xs).getLast (List.cons_ne_nil x xs)) (x :: xs).dropLast).symm
    rw [hfull] at hperm
    exact hperm

theorem swapRemove_append {α : Type} :
    ∀ (A : List α) (r : α) (B : List α),
      swapRemove (A ++ r :: B) A.length = some (r, A ++ swapTail B) := by
  intro A
  induction A with
  | nil => intro r B; rfl
  | cons a A ih =>
    intro r B
    have hstep : swapRemove ((a :: A) ++ r :: B) (a :: A).length =
        (swapRemove (A ++ r :: B) A.length).map (fun p => (p.1, a :: p.2)) :=
      rfl
    rw [hstep, ih]
    rfl

theorem swapRemove_perm {α : Type} :
    ∀ (l : List α) (i : Nat) (x : α) (rest : List α),
      swapRemove l i = some (x, rest) → l.Perm (x :: rest) := by
  intro l
  induction l with
  | nil => intro i x rest h; simp [swapRemove] at h
  | cons a as ih =>
    intro i x rest h
    cases i with
    | zero =>
      have h' : some (a, swapTail as) = some (x, rest) := h
      obtain ⟨h1, h2⟩ : a = x ∧ swapTail as = rest := by simpa using h'
      subst h1
      subst h2
      exact List.Perm.cons _ (swapTail_perm as).symm
    | succ i =>
      have h' : (swapRemove as i).map (fun p => (p.1, a :: p.2)) =
          some (x, rest) := h
      cases hsub : swapRemove as i with
      | none => rw [hsub] at h'; simp at h'
      | some p =>
        cases p with
        | mk y ys =>
          rw [hsub] at h'
          obtain ⟨h1, h2⟩ : y = x ∧ a :: ys = rest := by simpa using h'
          subst h2
          rw [← h1]
          have hy := ih i y ys hsub
          exact (List.Perm.cons a hy).trans (List.Perm.swap y a ys)

theorem positionAux_append {α : Type} (p : α → Bool) :
    ∀ (A : List α) (r : α) (B : List α) (n : Nat),
      (∀ x ∈ A, p x = false) → p r = true →
      positionAux p (A ++ r :: B) n = some (n + A.length) := by
  intro A
  induction A with
  | nil => intro r B n _ hr; simp [positionAux, hr]
  | cons a A ih =>
    intro r B n hA hr
    have ha : p a = false := hA a (List.mem_cons_self a A)
    have hstep : positionAux p ((a :: A) ++ r :: B) n =
        if p a then some n else positionAux p (A ++ r :: B) (n + 1) := rfl
    rw [hstep, ha]
    simp only [Bool.false_eq_true, if_false]
    rw [ih r B (n + 1) (fun x hx => hA x (List.mem_cons_of_mem a hx)) hr]
    congr 1
    simp only [List.length_cons]
    omega

theorem position_append {α : Type} (p : α → Bool) (A : List α) (r : α)
    (B : List α) (hA : ∀ x ∈ A, p x = false) (hr : p r = true) :
    position p (A ++ r :: B) = some A.length := by
  rw [position, positionAux_append p A r B 0 hA hr, Nat.zero_add]

theorem positionAux_eq_some {α : Type} (p : α → Bool) :
    ∀ (l : List α) (n m : Nat), positionAux p l n = some m →
      ∃ A r B, l = A ++ r :: B ∧ m = n + A.length ∧ p r = true := by
  intro l
  induction l with
  | nil => intro n m h; simp [positionAux] at h
  | cons a as ih =>
    intro n m h
    cases hpa : p a with
    | true =>
      rw [positionAux, hpa] at h
      simp only [if_true, Option.some.injEq] at h
      exact ⟨[], a, as, rfl, by simp [h.symm], hpa⟩
    | false =>
      rw [positionAux, hpa] at h
      simp only [Bool.false_eq_true, if_false] at h
      obtain ⟨A, r, B, hl, hm, hr⟩ := ih (n + 1) m h
      refine ⟨a :: A, r, B, by rw [hl]; rfl, ?_, hr⟩
      simp only [List.length_cons]
      omega

theorem position_eq_some {α : Type} (p : α → Bool) (l : List α) (j : Nat)
    (h : position p l = some j) :
    ∃ A r B, l = A ++ r :: B ∧ A.length = j ∧ p r = true := by
  obtain ⟨A, r, B, hl, hm, hr⟩ := positionAux_eq_some p l 0 j h
  exact ⟨A, r, B, hl, by omega, hr⟩

/-! ### Lemmas: the job-advancing pass -/

theorem advanceLoop_spec (pollFn : PollFn) (A : List JobRec) :
    ∀ (B : List JobRec),
      ((advanceLoop pollFn A.length (A ++ B)).2).Perm A ∧
      ((advanceLoop pollFn A.length (A ++ B)).1).Perm
        ((A.filter (fun jr => pollFn jr == JobPoll.pending)) ++ B) := by
  induction A using List.reverseRecOn with
  | nil =>
    intro B
    exact ⟨List.Perm.refl _, List.Perm.refl _⟩
  | append_singleton l r ih =>
    intro B
    have hlist : (l ++ [r]) ++ B = l ++ r :: B := by
      rw [List.append_assoc, List.singleton_append]
    have hlen : (l ++ [r]).length = l.length + 1 := by simp
    rw [hlist, hlen, advanceLoop, swapRemove_append]
    dsimp only
    cases hp : pollFn r with
    | pending =>
      dsimp only
      rw [List.append_assoc]
      obtain ⟨ih2, ih1⟩ := ih (swapTail B ++ [r])
      constructor
      · exact (ih2.cons r).trans (List.perm_append_singleton r l).symm
      · have hfil : (l ++ [r]).filter (fun jr => pollFn jr == JobPoll.pending) =
            l.filter (fun jr => pollFn jr == JobPoll.pending) ++ [r] := by
          simp [List.filter_append, hp]
        rw [hfil, List.append_assoc, List.singleton_append]
        have hswap : (swapTail B ++ [r]).Perm (r :: B) :=
          ((swapTail_perm B).append_right [r]).trans
            (List.perm_append_singleton r B)
        exact ih1.trans (List.Perm.append_left _ hswap)
    | readyOk =>
      dsimp only
      obtain ⟨ih2, ih1⟩ := ih (swapTail B)
      constructor
      · exact (ih2.cons r).trans (List.perm_append_singleton r l).symm
      · have hfil : (l ++ [r]).filter (fun jr => pollFn jr == JobPoll.pending) =
            l.filter (fun jr => pollFn jr == JobPoll.pending) := by
          simp [List.filter_append, hp]
        rw [hfil]
        exact ih1.trans (List.Perm.append_left _ (swapTail_perm B))
    | readyErr =>
      dsimp only
      obtain ⟨ih2, ih1⟩ := ih (swapTail B)
      constructor
      · exact (ih2.cons r).trans (List.perm_append_singleton r l).symm
      · have hfil : (l ++ [r]).filter (fun jr => pollFn jr == JobPoll.pending) =
            l.filter (fun jr => pollFn jr == JobPoll.pending) := by
          simp [List.filter_append, hp]
        rw [hfil]
        exact ih1.trans (List.Perm.append_left _ (swapTail_perm B))

theorem advanceLoop_full_spec (pollFn : PollFn) (jobs : List JobRec) :
    ((advanceLoop pollFn jobs.length jobs).2).Perm jobs ∧
    ((advanceLoop pollFn jobs.length jobs).1).Perm
      (jobs.filter (fun jr => pollFn jr == JobPoll.pending)) := by
  have h := advanceLoop_spec pollFn jobs []
  rw [List.append_nil, List.append_nil] at h
  exact h

/-! ### Lemmas: service state queries and transitions -/

theorem contains_payload_eq_false_iff (st : ServiceState) (id : PayloadId) :
    contains_payload st id = false ↔ id ∉ jobIds st := by
  constructor
  · intro h hmem
    rw [jobIds, List.mem_map] at hmem
    obtain ⟨jr, hjr, hid⟩ := hmem
    have hany : st.payload_jobs.any (fun jr => jr.2 == id) = true :=
      List.any_eq_true.mpr ⟨jr, hjr, by simp [hid]⟩
    rw [contains_payload] at h
    rw [h] at hany
    exact Bool.false_ne_true hany
  · intro h
    rw [contains_payload]
    cases hany : st.payload_jobs.any (fun jr => jr.2 == id) with
    | false => rfl
    | true =>
      obtain ⟨jr, hjr, hid⟩ := List.any_eq_true.mp hany
      exact absurd (by
        rw [jobIds, List.mem_map]
        exact ⟨jr, hjr, by simpa using hid⟩) h

theorem best_payload_eq_none (st : ServiceState) (id : PayloadId)
    (h : id ∉ jobIds st) : best_payload st id = none := by
  rw [best_payload]
  have hfind : st.payload_jobs.find? (fun jr => jr.2 == id) = none := by
    rw [List.find?_eq_none]
    intro x hx hbeq
    exact h (by
      rw [jobIds, List.mem_map]
      exact ⟨x, hx, by simpa using hbeq⟩)
  rw [hfind]
  rfl

theorem resolveStep_jobs_cases (st : ServiceState) (id : PayloadId)
    (kind : PayloadKind) :
    (resolveStep st id kind).1.payload_jobs = st.payload_jobs ∨
      ∃ x rest, st.payload_jobs.Perm (x :: rest) ∧
        (resolveStep st id kind).1.payload_jobs = rest := by
  rw [resolveStep]
  split
  · exact Or.inl rfl
  · rename_i j hpos
    split
    · exact Or.inl rfl
    · rename_i jr hget
      split
      · split
        · exact Or.inl rfl
        · rename_i p hsw
          exact Or.inr ⟨p.1, p.2, swapRemove_perm _ _ _ _ (by
            rw [hsw]), rfl⟩
      · exact Or.inl rfl

theorem build_new_payload_jobs_cases (gen : Generator) (st : ServiceState)
    (attr : PayloadAttributes) :
    (build_new_payload gen st attr).1.payload_jobs = st.payload_jobs ∨
      (contains_payload st attr.pid = false ∧ ∃ job,
        (build_new_payload gen st attr).1.payload_jobs =
          st.payload_jobs ++ [(job, attr.pid)]) := by
  rw [build_new_payload]
  split
  · exact Or.inl rfl
  · rename_i hc
    have hc' : contains_payload st attr.pid = false := by
      cases hcb : contains_payload st attr.pid with
      | false => rfl
      | true => exact absurd hcb hc
    split
    · rename_i job hgen
      exact Or.inr ⟨hc', job, rfl⟩
    · exact Or.inl rfl

theorem nodup_applyOp (gen : Generator) (pollFn : PollFn) (st : ServiceState)
    (op : ServiceOp) (h : (jobIds st).Nodup) :
    (jobIds (applyOp gen pollFn st op)).Nodup := by
  cases op with
  | advance =>
    have hperm := (advanceLoop_full_spec pollFn st.payload_jobs).2
    have hmap := hperm.map Prod.snd
    have hsub : List.Sublist
        ((st.payload_jobs.filter
          (fun jr => pollFn jr == JobPoll.pending)).map Prod.snd)
        (st.payload_jobs.map Prod.snd) :=
      (List.filter_sublist _).map Prod.snd
    exact (hmap.nodup_iff).mpr (hsub.nodup h)
  | cmd c =>
    cases c with
    | buildNewPayload attr =>
      rcases build_new_payload_jobs_cases gen st attr with heq | ⟨hc, job, heq⟩
      · show ((applyCommand gen st (.buildNewPayload attr)).payload_jobs.map
          Prod.snd).Nodup
        rw [applyCommand, heq]
        exact h
      · show ((applyCommand gen st (.buildNewPayload attr)).payload_jobs.map
          Prod.snd).Nodup
        rw [applyCommand, heq, List.map_append]
        rw [List.nodup_append]
        refine ⟨h, List.nodup_singleton _, ?_⟩
        intro x hx hx2
        simp only [List.map_cons, List.map_nil, List.mem_singleton] at hx2
        subst hx2
        exact (contains_payload_eq_false_iff st attr.pid).mp hc hx
    | bestPayload id => exact h
    | payloadAttributes id => exact h
    | subscribe => exact h
    | resolve id kind =>
      rcases resolveStep_jobs_cases st id kind with heq | ⟨x, rest, hperm, heq⟩
      · show ((applyCommand gen st (.resolve id kind)).payload_jobs.map
          Prod.snd).Nodup
        rw [applyCommand, heq]
        exact h
      · show ((applyCommand gen st (.resolve id kind)).payload_jobs.map
          Prod.snd).Nodup
        rw [applyCommand, heq]
        have hmap := hperm.map Prod.snd
        have := (hmap.nodup_iff).mp h
        simp only [List.map_cons] at this
        exact this.of_cons

theorem nodup_runOps (gen : Generator) (pollFn : PollFn) :
    ∀ (ops : List ServiceOp) (st : ServiceState), (jobIds st).Nodup →
      (jobIds (runOps gen pollFn st ops)).Nodup := by
  intro ops
  induction ops with
  | nil => intro st h; exact h
  | cons op rest ih =>
    intro st h
    exact ih (applyOp gen pollFn st op) (nodup_applyOp gen pollFn st op h)

theorem jobIds_applyOp_subset (gen : Generator) (pollFn : PollFn)
    (st : ServiceState) (op : ServiceOp) (id : PayloadId)
    (hnot : id ∉ jobIds st)
    (hop : ∀ a, op = .cmd (.buildNewPayload a) → a.pid ≠ id) :
    id ∉ jobIds (applyOp gen pollFn st op) := by
  cases op with
  | advance =>
    intro hmem
    have hperm := (advanceLoop_full_spec pollFn st.payload_jobs).2
    have hmap := hperm.map Prod.snd
    rw [jobIds] at hmem
    have hmem2 := hmap.mem_iff.mp hmem
    rw [List.mem_map] at hmem2
    obtain ⟨jr, hjr, hid⟩ := hmem2
    exact hnot (by
      rw [jobIds, List.mem_map]
      exact ⟨jr, List.mem_of_mem_filter hjr, hid⟩)
  | cmd c =>
    cases c with
    | buildNewPayload attr =>
      have hne : attr.pid ≠ id := hop attr rfl
      rcases build_new_payload_jobs_cases gen st attr with heq | ⟨hc, job, heq⟩
      · show id ∉ jobIds (applyCommand gen st (.buildNewPayload attr))
        rw [jobIds, applyCommand, heq]
        exact hnot
      · show id ∉ jobIds (applyCommand gen st (.buildNewPayload attr))
        rw [jobIds, applyCommand, heq, List.map_append]
        intro hmem
        rcases List.mem_append.mp hmem with hm | hm
        · exact hnot hm
        · simp only [List.map_cons, List.map_nil, List.mem_singleton] at hm
          exact hne hm.symm
    | bestPayload i => exact hnot
    | payloadAttributes i => exact hnot
    | subscribe => exact hnot
    | resolve i kind =>
      rcases resolveStep_jobs_cases st i kind with heq | ⟨x, rest, hperm, heq⟩
      · show id ∉ jobIds (applyCommand gen st (.resolve i kind))
        rw [jobIds, applyCommand, heq]
        exact hnot
      · show id ∉ jobIds (applyCommand gen st (.resolve i kind))
        rw [jobIds, applyCommand, heq]
        intro hmem
        have hmem2 : id ∈ (x :: rest).map Prod.snd :=
          List.mem_cons_of_mem _ hmem
        have := (hperm.map Prod.snd).mem_iff.mpr hmem2
        exact hnot this

theorem jobIds_runOps_subset (gen : Generator) (pollFn : PollFn)
    (id : PayloadId) :
    ∀ (ops : List ServiceOp) (st : ServiceState), id ∉ jobIds st →
      (∀ a, ServiceOp.cmd (.buildNewPayload a) ∈ ops → a.pid ≠ id) →
      id ∉ jobIds (runOps gen pollFn st ops) := by
  intro ops
  induction ops with
  | nil => intro st h _; exact h
  | cons op rest ih =>
    intro st h hops
    refine ih (applyOp gen pollFn st op) ?_ ?_
    · exact jobIds_applyOp_subset gen pollFn st op id h
        (fun a ha => hops a (by rw [ha]; exact List.mem_cons_self _ _))
    · exact fun a ha => hops a (List.mem_cons_of_mem _ ha)

theorem resolveStep_found (st : ServiceState) (id : PayloadId)
    (kind : PayloadKind) (A B : List JobRec) (j : PayloadJob)
    (hjobs : st.payload_jobs = A ++ (j, id) :: B)
    (hA : ∀ jr ∈ A, jr.2 ≠ id)
    (hkeep : j.resolveKeep kind = .no) :
    resolveStep st id kind =
      ({ st with payload_jobs := A ++ swapTail B },
        some (j.resolveFut kind)) := by
  have hpos : position (fun jr => jr.2 == id) st.payload_jobs =
      some A.length := by
    rw [hjobs]
    refine position_append _ A (j, id) B ?_ ?_
    · intro x hx
      exact beq_eq_false_iff_ne.mpr (hA x hx)
    · exact beq_self_eq_true id
  have hget : st.payload_jobs[A.length]? = some (j, id) := by
    rw [hjobs]
    rw [List.getElem?_append_right (Nat.le_refl A.length)]
    simp
  have hsw : swapRemove st.payload_jobs A.length =
      some ((j, id), A ++ swapTail B) := by
    rw [hjobs]
    exact swapRemove_append A (j, id) B
  rw [resolveStep, hpos]
  dsimp only
  rw [hget]
  dsimp only
  rw [hkeep]
  simp only [beq_self_eq_true, if_true]
  rw [hsw]

theorem not_mem_ids_after_remove (A B : List JobRec) (id : PayloadId)
    (hA : ∀ jr ∈ A, jr.2 ≠ id) (hB : ∀ jr ∈ B, jr.2 ≠ id) :
    id ∉ (A ++ swapTail B).map Prod.snd := by
  intro hmem
  rw [List.map_append, List.mem_append] at hmem
  rcases hmem with hm | hm
  · rw [List.mem_map] at hm
    obtain ⟨jr, hjr, hid⟩ := hm
    exact hA jr hjr hid
  · rw [List.mem_map] at hm
    obtain ⟨jr, hjr, hid⟩ := hm
    exact hB jr ((swapTail_perm B).mem_iff.mp hjr) hid

theorem build_new_payload_fresh (gen : Generator) (st : ServiceState)
    (attr : PayloadAttributes) (job : PayloadJob)
    (hfresh : contains_payload st attr.pid = false)
    (hgen : gen attr = .ok job) :
    build_new_payload gen st attr =
      ({ st with
          payload_jobs := st.payload_jobs ++ [(job, attr.pid)],
          events := st.events ++ [.attributes attr],
          initiated_jobs := st.initiated_jobs + 1,
          new_payload_job_calls := st.new_payload_job_calls + 1 },
        .ok attr.pid) := by
  rw [build_new_payload]
  rw [hfresh]
  simp only [Bool.false_eq_true, if_false]
  rw [hgen]

theorem build_new_payload_dup (gen : Generator) (st : ServiceState)
    (attr : PayloadAttributes)
    (hdup : contains_payload st attr.pid = true) :
    build_new_payload gen st attr = (st, .ok attr.pid) := by
  rw [build_new_payload]
  rw [hdup]
  simp only [if_true]

theorem contains_payload_push (st : ServiceState) (jobs : List JobRec)
    (job : PayloadJob) (id : PayloadId)
    (hjobs : st.payload_jobs = jobs ++ [(job, id)]) :
    contains_payload st id = true := by
  rw [contains_payload, hjobs, List.any_append]
  simp

/-! ### Lemmas: top-level response budgets -/

theorem get_headers_response_length_le (c : Client)
    (request : GetBlockHeaders) :
    (get_headers_response c request).length ≤ MAX_HEADERS_SERVE := by
  cases request with
  | mk sb limit skip dir =>
    cases sb with
    | hash h =>
      simp only [get_headers_response]
      have := headersLoop_length_le c dir skip limit (.hash h) 0 0 (by decide)
      omega
    | number num =>
      simp only [get_headers_response]
      cases unwrapOrDefault (c.block_hash num) with
      | none => dsimp only; decide
      | some hh =>
        dsimp only
        have := headersLoop_length_le c dir skip limit (.hash hh) 0 0
          (by decide)
        omega

theorem get_headers_response_bytes_le (c : Client)
    (request : GetBlockHeaders) :
    sumHeaderBytes (get_headers_response c request).dropLast ≤
      SOFT_RESPONSE_LIMIT := by
  cases request with
  | mk sb limit skip dir =>
    cases sb with
    | hash h =>
      simp only [get_headers_response]
      have := headersLoop_bytes_le c dir skip limit (.hash h) 0 0 (by decide)
      omega
    | number num =>
      simp only [get_headers_response]
      cases unwrapOrDefault (c.block_hash num) with
      | none => dsimp only; decide
      | some hh =>
        dsimp only
        have := headersLoop_bytes_le c dir skip limit (.hash hh) 0 0
          (by decide)
        omega

theorem bodies_response_length_le (c : Client) (request : List BlockHash) :
    (bodies_response c request).length ≤ MAX_BODIES_SERVE := by
  have := bodiesLoop_length_le c request 0 0 (by decide)
  rw [bodies_response]
  omega

theorem bodies_response_bytes_le (c : Client) (request : List BlockHash) :
    sumBodyBytes (bodies_response c request).dropLast ≤
      SOFT_RESPONSE_LIMIT := by
  have := bodiesLoop_bytes_le c request 0 0 (by decide)
  rw [bodies_response]
  omega

theorem get_receipts_response_length_le {T : Type} (c : Client)
    (tf : List Receipt → List T) (lenT : List T → Nat)
    (request : List BlockHash) :
    (get_receipts_response c tf lenT request).length ≤ MAX_RECEIPTS_SERVE := by
  have := receiptsLoop_length_le c tf lenT request 0 0 (by decide)
  rw [get_receipts_response]
  omega

theorem get_receipts_response_bytes_le {T : Type} (c : Client)
    (tf : List Receipt → List T) (lenT : List T → Nat)
    (request : List BlockHash) :
    sumReceiptBytes lenT (get_receipts_response c tf lenT request).dropLast ≤
      SOFT_RESPONSE_LIMIT := by
  have := receiptsLoop_bytes_le c tf lenT request 0 0 (by decide)
  rw [get_receipts_response]
  omega

/-! ### Claim theorems -/

/-- C1: every response produced by the eth request handler (headers, bodies,
receipts) has at most 1024 elements, the sum of the encoded byte lengths of
all elements except the last is at most SOFT_RESPONSE_LIMIT, and once some
prefix of the response strictly exceeds the limit the response ends there,
so the element that first pushes the total above the limit is the last one
included and no element is appended after it. -/
theorem c1_budget_respect (c : Client) (hreq : GetBlockHeaders)
    (breq : List BlockHash) {T : Type} (tf : List Receipt → List T)
    (lenT : List T → Nat) (rreq : List BlockHash) :
    (get_headers_response c hreq).length ≤ MAX_HEADERS_SERVE ∧
    sumHeaderBytes (get_headers_response c hreq).dropLast ≤
      SOFT_RESPONSE_LIMIT ∧
    (bodies_response c breq).length ≤ MAX_BODIES_SERVE ∧
    sumBodyBytes (bodies_response c breq).dropLast ≤ SOFT_RESPONSE_LIMIT ∧
    (get_receipts_response c tf lenT rreq).length ≤ MAX_RECEIPTS_SERVE ∧
    sumReceiptBytes lenT (get_receipts_response c tf lenT rreq).dropLast ≤
      SOFT_RESPONSE_LIMIT ∧
    (∀ i, SOFT_RESPONSE_LIMIT <
        sumHeaderBytes ((get_headers_response c hreq).take i) →
      (get_headers_response c hreq).length ≤ i) ∧
    (∀ i, SOFT_RESPONSE_LIMIT <
        sumBodyBytes ((bodies_response c breq).take i) →
      (bodies_response c breq).length ≤ i) ∧
    (∀ i, SOFT_RESPONSE_LIMIT <
        sumReceiptBytes lenT ((get_receipts_response c tf lenT rreq).take i) →
      (get_receipts_response c tf lenT rreq).length ≤ i) := by
  refine ⟨get_headers_response_length_le c hreq,
    get_headers_response_bytes_le c hreq,
    bodies_response_length_le c breq,
    bodies_response_bytes_le c breq,
    get_receipts_response_length_le c tf lenT rreq,
    get_receipts_response_bytes_le c tf lenT rreq, ?_, ?_, ?_⟩
  · exact fun i hi => length_le_of_budget_crossed Header.encLen _ i
      (get_headers_response_bytes_le c hreq) hi
  · exact fun i hi => length_le_of_budget_crossed BlockBody.encLen _ i
      (bodies_response_bytes_le c breq) hi
  · exact fun i hi => length_le_of_budget_crossed lenT _ i
      (get_receipts_response_bytes_le c tf lenT rreq) hi

/-- Witness for C1 at the concrete chain store whose elements all encode to
699051 bytes: responses of length 3, and crossing prefixes at i = 3. -/
theorem c1_budget_respect_witness :
    (get_headers_response (chainClient (fun _ => 699051))
      { start_block := .number 0, limit := 10, skip := 0,
        direction := .rising }).length ≤ MAX_HEADERS_SERVE ∧
    sumHeaderBytes (get_headers_response (chainClient (fun _ => 699051))
      { start_block := .number 0, limit := 10, skip := 0,
        direction := .rising }).dropLast ≤ SOFT_RESPONSE_LIMIT ∧
    (bodies_response (chainClient (fun _ => 699051))
      [100, 101, 102, 103]).length ≤ MAX_BODIES_SERVE ∧
    sumBodyBytes (bodies_response (chainClient (fun _ => 699051))
      [100, 101, 102, 103]).dropLast ≤ SOFT_RESPONSE_LIMIT ∧
    (get_receipts_response (chainClient (fun _ => 699051)) (fun l => l)
      (fun l => 699051 * l.length) [100, 101, 102, 103]).length ≤
        MAX_RECEIPTS_SERVE ∧
    sumReceiptBytes (fun l => 699051 * l.length)
      (get_receipts_response (chainClient (fun _ => 699051)) (fun l => l)
        (fun l => 699051 * l.length) [100, 101, 102, 103]).dropLast ≤
      SOFT_RESPONSE_LIMIT ∧
    (get_headers_response (chainClient (fun _ => 699051))
      { start_block := .number 0, limit := 10, skip := 0,
        direction := .rising }).length ≤ 3 ∧
    (bodies_response (chainClient (fun _ => 699051))
      [100, 101, 102, 103]).length ≤ 3 ∧
    (get_receipts_response (chainClient (fun _ => 699051)) (fun l => l)
      (fun l => 699051 * l.length) [100, 101, 102, 103]).length ≤ 3 := by
  have h := c1_budget_respect (chainClient (fun _ => 699051))
    { start_block := .number 0, limit := 10, skip := 0, direction := .rising }
    [100, 101, 102, 103] (fun l => l) (fun l => 699051 * l.length)
    [100, 101, 102, 103]
  exact ⟨h.1, h.2.1, h.2.2.1, h.2.2.2.1, h.2.2.2.2.1, h.2.2.2.2.2.1,
    h.2.2.2.2.2.2.1 3 (by decide), h.2.2.2.2.2.2.2.1 3 (by decide),
    h.2.2.2.2.2.2.2.2 3 (by decide)⟩

/-- C2 counterexample: on the chain 0 to 10, the request with start number 1,
limit 5, skip 3, direction Falling does not return the header of block 1:
the break on the underflowing advance precedes the push, so the header is
dropped. -/
theorem c2_counterexample :
    ¬ (get_headers_response (chainClient (fun _ => 500))
        { start_block := .number 1, limit := 5, skip := 3,
          direction := .falling } =
      [{ number := 1, parent_hash := 100, encLen := 500 }]) := by decide

/-- C2 amended: the same request returns no headers at all, because the
underflow of the advance computation 1 - 1 - 3 breaks out of the loop
before the header of block 1 is appended. -/
theorem c2_amended_underflow_drops_header :
    get_headers_response (chainClient (fun _ => 500))
      { start_block := .number 1, limit := 5, skip := 3,
        direction := .falling } = [] := by decide

/-- C3 counterexample: with headers of exactly 699051 bytes each (the ceiling
of 2 MiB divided by 3) and limit 10, the response does not hold 4 headers. -/
theorem c3_counterexample :
    ¬ ((get_headers_response (chainClient (fun _ => 699051))
        { start_block := .number 0, limit := 10, skip := 0,
          direction := .rising }).length = 4) := by decide

/-- C3 amended: that response holds exactly 3 headers; the first two stay
within the byte budget and the third crosses it, as the total exceeds
SOFT_RESPONSE_LIMIT while the total without the last element does not. -/
theorem c3_amended_three_headers :
    (get_headers_response (chainClient (fun _ => 699051))
      { start_block := .number 0, limit := 10, skip := 0,
        direction := .rising }).length = 3 ∧
    SOFT_RESPONSE_LIMIT <
      sumHeaderBytes (get_headers_response (chainClient (fun _ => 699051))
        { start_block := .number 0, limit := 10, skip := 0,
          direction := .rising }) ∧
    sumHeaderBytes (get_headers_response (chainClient (fun _ => 699051))
      { start_block := .number 0, limit := 10, skip := 0,
        direction := .rising }).dropLast ≤ SOFT_RESPONSE_LIMIT := by decide

/-- C7 counterexample: a Rising traversal starting at the header with the
maximal u64 number does not stop: the unchecked increment wraps to 0, the
checked skip addition succeeds, and the traversal continues at block number
skip, serving a second header. -/
theorem c7_counterexample :
    (get_headers_response overflowClient
      { start_block := .hash 200, limit := 2, skip := 0,
        direction := .rising }).length = 2 := by decide

/-- C7 amended: for a header with number below the maximal u64 value, the
Rising advance yields none exactly when number + 1 + skip overflows u64, and
a none advance ends the loop without appending the current header; at the
maximal number the unchecked increment wraps to 0 and the advance yields
block number skip instead of stopping. -/
theorem c7_amended_rising_overflow (header : Header) (skip : Nat)
    (hskip : skip < U64_SIZE) :
    (header.number + 1 < U64_SIZE →
      (risingNext header skip = none ↔
        U64_SIZE ≤ header.number + 1 + skip)) ∧
    (header.number + 1 = U64_SIZE → risingNext header skip = some skip) ∧
    (∀ (c : Client) (fuel : Nat) (block : BlockHashOrNumber)
        (count total : Nat),
      unwrapOrDefault (c.header_by_hash_or_number block) = some header →
      risingNext header skip = none →
      headersLoop c .rising skip (fuel + 1) block count total = []) := by
  refine ⟨?_, ?_, ?_⟩
  · intro hlt
    rw [risingNext, checkedAdd, Nat.mod_eq_of_lt hlt]
    by_cases hc : header.number + 1 + skip < U64_SIZE
    · rw [if_pos hc]
      constructor
      · intro h
        exact absurd h (by simp)
      · intro h
        omega
    · rw [if_neg hc]
      constructor
      · intro _
        omega
      · intro _
        rfl
  · intro heq
    rw [risingNext, checkedAdd, heq, Nat.mod_self, Nat.zero_add]
    rw [if_pos hskip]
  · intro c fuel block count total hlook hnone
    have hnext : nextBlock .rising skip header = none := by
      rw [nextBlock, hnone]
      rfl
    rw [headersLoop, hlook]
    dsimp only
    rw [hnext]

/-- Witness for C7 amended, at the numbers just below the u64 boundary. -/
theorem c7_amended_witness :
    risingNext { number := U64_SIZE - 2, parent_hash := 0, encLen := 0 } 1 =
      none ∧
    risingNext { number := U64_SIZE - 1, parent_hash := 0, encLen := 0 } 5 =
      some 5 := by
  constructor
  · exact ((c7_amended_rising_overflow
      { number := U64_SIZE - 2, parent_hash := 0, encLen := 0 } 1
      (by decide)).1 (by decide)).mpr (by decide)
  · exact (c7_amended_rising_overflow
      { number := U64_SIZE - 1, parent_hash := 0, encLen := 0 } 5
      (by decide)).2.1 (by decide)

/-- C8: on the chain 0 to 10, the request with start number 5, limit 3,
skip 0, direction Falling returns the headers of blocks 5, 4, 3 in order;
each step follows the parent hash of the previous header. -/
theorem c8_falling_parent_hash_walk :
    get_headers_response (chainClient (fun _ => 500))
      { start_block := .number 5, limit := 3, skip := 0,
        direction := .falling } =
      [{ number := 5, parent_hash := 104, encLen := 500 },
       { number := 4, parent_hash := 103, encLen := 500 },
       { number := 3, parent_hash := 102, encLen := 500 }] := by decide

/-- C10: every reply value of the eth handler is the Ok variant; the three
response computations are unchanged when every storage error of the chain
store is replaced by an absent result (because every call site unwraps with
unwrap_or_default); and a miss stops the accumulation at exactly that slot
for every kind: a missing block truncates the bodies response at that hash,
a missing receipt group truncates the receipts response at that hash, a
missing header ends the headers traversal at that iteration with nothing
further appended, and a numeric start whose hash is unknown yields the
empty headers response. -/
theorem c10_errors_as_absent_and_ok_replies (c : Client)
    (hreq : GetBlockHeaders) (breq : List BlockHash) {T : Type}
    (tf : List Receipt → List T) (lenT : List T → Nat)
    (rreq : List BlockHash) :
    requestIsOk (on_headers_request c hreq) = true ∧
    requestIsOk (on_bodies_request c breq) = true ∧
    requestIsOk (on_receipts_request c tf lenT rreq) = true ∧
    get_headers_response (errToNone c) hreq = get_headers_response c hreq ∧
    bodies_response (errToNone c) breq = bodies_response c breq ∧
    get_receipts_response (errToNone c) tf lenT rreq =
      get_receipts_response c tf lenT rreq ∧
    (∀ (pre post : List BlockHash) (hmiss : BlockHash),
      unwrapOrDefault (c.block_by_hash hmiss) = none →
      bodies_response c (pre ++ hmiss :: post) = bodies_response c pre) ∧
    (∀ (pre post : List BlockHash) (hmiss : BlockHash),
      unwrapOrDefault (c.receipts_by_block (.hash hmiss)) = none →
      get_receipts_response c tf lenT (pre ++ hmiss :: post) =
        get_receipts_response c tf lenT pre) ∧
    (∀ (d : HeadersDirection) (s fuel count total : Nat)
        (block : BlockHashOrNumber),
      unwrapOrDefault (c.header_by_hash_or_number block) = none →
      headersLoop c d s (fuel + 1) block count total = []) ∧
    (∀ (num limit s : Nat) (d : HeadersDirection),
      unwrapOrDefault (c.block_hash num) = none →
      get_headers_response c
        { start_block := .number num, limit := limit, skip := s,
          direction := d } = []) := by
  refine ⟨rfl, rfl, rfl, get_headers_response_errToNone c hreq,
    bodiesLoop_errToNone c breq 0 0,
    receiptsLoop_errToNone c tf lenT rreq 0 0,
    fun pre post hmiss hm =>
      bodiesLoop_stops_at_missing c hmiss hm pre post 0 0,
    fun pre post hmiss hm =>
      receiptsLoop_stops_at_missing c tf lenT hmiss hm pre post 0 0,
    fun d s fuel count total block hm =>
      headersLoop_stops_at_missing c d s block hm fuel count total,
    fun num limit s d hm =>
      get_headers_response_missing_start c num limit s d hm⟩

/-- Witness for C10 at the concrete chain store: bodies and receipts
requests that miss at hash 7, a headers iteration at the unknown hash 7,
and a headers request starting at the unknown number 11. -/
theorem c10_witness :
    requestIsOk (on_headers_request (chainClient (fun _ => 500))
      { start_block := .number 5, limit := 3, skip := 0,
        direction := .falling }) = true ∧
    bodies_response (errToNone (chainClient (fun _ => 500))) [100, 101] =
      bodies_response (chainClient (fun _ => 500)) [100, 101] ∧
    bodies_response (chainClient (fun _ => 500)) ([100] ++ 7 :: [101]) =
      bodies_response (chainClient (fun _ => 500)) [100] ∧
    get_receipts_response (chainClient (fun _ => 500)) (fun l => l)
        (fun l => l.length) ([100] ++ 7 :: [101]) =
      get_receipts_response (chainClient (fun _ => 500)) (fun l => l)
        (fun l => l.length) [100] ∧
    headersLoop (chainClient (fun _ => 500)) .falling 0 (0 + 1) (.hash 7)
      0 0 = [] ∧
    get_headers_response (chainClient (fun _ => 500))
      { start_block := .number 11, limit := 3, skip := 0,
        direction := .falling } = [] := by
  have h := c10_errors_as_absent_and_ok_replies (chainClient (fun _ => 500))
    { start_block := .number 5, limit := 3, skip := 0, direction := .falling }
    [100, 101] (fun l => l) (fun l => l.length) [100, 101]
  exact ⟨h.1, h.2.2.2.2.1,
    h.2.2.2.2.2.2.1 [100] [101] 7 (by decide),
    h.2.2.2.2.2.2.2.1 [100] [101] 7 (by decide),
    h.2.2.2.2.2.2.2.2.1 .falling 0 0 0 0 (.hash 7) (by decide),
    h.2.2.2.2.2.2.2.2.2 11 3 0 .falling (by decide)⟩

/-- C4: sending BuildNewPayload twice with the same attributes is idempotent
when the first build is accepted: both replies are Ok with the payload id of
the attributes, exactly one job record is appended, the generator is invoked
exactly once, the initiated-jobs metric advances by one, and exactly one
Attributes event is broadcast. -/
theorem c4_build_idempotent (gen : Generator) (st : ServiceState)
    (attr : PayloadAttributes) (job : PayloadJob)
    (hfresh : contains_payload st attr.pid = false)
    (hgen : gen attr = .ok job) :
    (build_new_payload gen st attr).2 = .ok attr.pid ∧
    (build_new_payload gen (build_new_payload gen st attr).1 attr).2 =
      .ok attr.pid ∧
    (build_new_payload gen
        (build_new_payload gen st attr).1 attr).1.payload_jobs =
      st.payload_jobs ++ [(job, attr.pid)] ∧
    (build_new_payload gen (build_new_payload gen st attr).1 attr).1.events =
      st.events ++ [PayloadEvent.attributes attr] ∧
    (build_new_payload gen
        (build_new_payload gen st attr).1 attr).1.new_payload_job_calls =
      st.new_payload_job_calls + 1 ∧
    (build_new_payload gen
        (build_new_payload gen st attr).1 attr).1.initiated_jobs =
      st.initiated_jobs + 1 := by
  have h1 := build_new_payload_fresh gen st attr job hfresh hgen
  rw [h1]
  dsimp only
  have hdup : contains_payload
      ({ st with
          payload_jobs := st.payload_jobs ++ [(job, attr.pid)],
          events := st.events ++ [.attributes attr],
          initiated_jobs := st.initiated_jobs + 1,
          new_payload_job_calls := st.new_payload_job_calls + 1 })
      attr.pid = true :=
    contains_payload_push _ st.payload_jobs job attr.pid rfl
  rw [build_new_payload_dup gen _ attr hdup]
  exact ⟨rfl, rfl, rfl, rfl, rfl, rfl⟩

/-- Witness for C4, starting from the empty service state. -/
theorem c4_witness :
    (build_new_payload gen0 initialState attr0).2 = .ok 5 ∧
    (build_new_payload gen0
      (build_new_payload gen0 initialState attr0).1 attr0).2 = .ok 5 ∧
    (build_new_payload gen0
      (build_new_payload gen0 initialState attr0).1 attr0).1.payload_jobs =
      [(job0, 5)] ∧
    (build_new_payload gen0
      (build_new_payload gen0 initialState attr0).1 attr0).1.events =
      [PayloadEvent.attributes attr0] ∧
    (build_new_payload gen0
      (build_new_payload gen0 initialState attr0).1
        attr0).1.new_payload_job_calls = 1 := by
  have h := c4_build_idempotent gen0 initialState attr0 job0 (by decide) rfl
  exact ⟨h.1, h.2.1, h.2.2.1, h.2.2.2.1, h.2.2.2.2.1⟩

/-- C5: the active job set holds pairwise distinct payload ids: every
service operation (commands, including BuildNewPayload and Resolve, and the
swap-removing job-advancing pass) preserves distinctness of jobIds, and any
operation sequence run from the initial state ends with distinct jobIds. -/
theorem c5_distinct_job_ids :
    (∀ (gen : Generator) (pollFn : PollFn) (st : ServiceState)
        (op : ServiceOp),
      (jobIds st).Nodup → (jobIds (applyOp gen pollFn st op)).Nodup) ∧
    (∀ (gen : Generator) (pollFn : PollFn) (ops : List ServiceOp),
      (jobIds (runOps gen pollFn initialState ops)).Nodup) := by
  constructor
  · exact fun gen pollFn st op h => nodup_applyOp gen pollFn st op h
  · intro gen pollFn ops
    exact nodup_runOps gen pollFn ops initialState (by simp [jobIds, initialState])

/-- Witness for C5 at a concrete state, operation, and operation sequence. -/
theorem c5_witness :
    (jobIds (applyOp gen0 pollFn0 st0
      (ServiceOp.cmd (.buildNewPayload attr0)))).Nodup ∧
    (jobIds (runOps gen0 pollFn0 initialState
      [ServiceOp.cmd (.buildNewPayload attr0), ServiceOp.advance,
       ServiceOp.cmd (.resolve 5 .earliest)])).Nodup := by
  exact ⟨c5_distinct_job_ids.1 gen0 pollFn0 st0 _ (by decide),
    c5_distinct_job_ids.2 gen0 pollFn0 _⟩

/-- C6: resolving an active job whose resolve_kind verdict is keep-alive No
removes the record from the active set in the same transition that produces
the reply future, so the reply is delivered with the job already gone;
afterwards contains_payload is false and best_payload answers none, and it
stays none across any operation sequence that contains no BuildNewPayload
whose attributes map to that id. -/
theorem c6_resolve_keep_no_removes (gen : Generator) (pollFn : PollFn)
    (st : ServiceState) (A B : List JobRec) (j : PayloadJob) (id : PayloadId)
    (kind : PayloadKind)
    (hjobs : st.payload_jobs = A ++ (j, id) :: B)
    (hA : ∀ jr ∈ A, jr.2 ≠ id) (hB : ∀ jr ∈ B, jr.2 ≠ id)
    (hkeep : j.resolveKeep kind = .no) :
    (resolveStep st id kind).2 = some (j.resolveFut kind) ∧
    contains_payload (resolveStep st id kind).1 id = false ∧
    best_payload (resolveStep st id kind).1 id = none ∧
    (∀ ops : List ServiceOp,
      (∀ a, ServiceOp.cmd (.buildNewPayload a) ∈ ops → a.pid ≠ id) →
      best_payload (runOps gen pollFn (resolveStep st id kind).1 ops) id =
        none) := by
  have hres := resolveStep_found st id kind A B j hjobs hA hkeep
  have hnotmem : id ∉ jobIds (resolveStep st id kind).1 := by
    rw [hres]
    exact not_mem_ids_after_remove A B id hA hB
  refine ⟨by rw [hres], (contains_payload_eq_false_iff _ id).mpr hnotmem,
    best_payload_eq_none _ id hnotmem,
    fun ops hops => best_payload_eq_none _ id
      (jobIds_runOps_subset gen pollFn id ops _ hnotmem hops)⟩

/-- Witness for C6 at the one-job state st0, resolving with kind Earliest. -/
theorem c6_witness :
    (resolveStep st0 5 .earliest).2 = some 7 ∧
    contains_payload (resolveStep st0 5 .earliest).1 5 = false ∧
    best_payload (resolveStep st0 5 .earliest).1 5 = none ∧
    best_payload (runOps gen0 pollFn0 (resolveStep st0 5 .earliest).1
      [ServiceOp.advance, ServiceOp.cmd (.bestPayload 5)]) 5 = none := by
  have h := c6_resolve_keep_no_removes gen0 pollFn0 st0 [] [] job0 5
    .earliest rfl (by intro jr hjr; cases hjr) (by intro jr hjr; cases hjr)
    rfl
  refine ⟨h.1, h.2.1, h.2.2.1, h.2.2.2
    [ServiceOp.advance, ServiceOp.cmd (.bestPayload 5)] ?_⟩
  intro a ha
  simp at ha

/-- C9: in one job-advancing pass, the list of polled records is a
permutation of the job vector at the start of the pass, so every job is
polled exactly once, never zero times and never twice, despite the reverse
iteration with swap-removal and re-push; and the vector after the pass is a
permutation of exactly the records whose poll outcome is pending, so
pending jobs remain and completed or errored jobs are gone. -/
theorem c9_each_job_polled_once (pollFn : PollFn) (st : ServiceState) :
    ((advanceLoop pollFn st.payload_jobs.length st.payload_jobs).2).Perm
      st.payload_jobs ∧
    ((advance_jobs pollFn st).payload_jobs).Perm
      (st.payload_jobs.filter (fun jr => pollFn jr == JobPoll.pending)) := by
  obtain ⟨h2, h1⟩ := advanceLoop_full_spec pollFn st.payload_jobs
  exact ⟨h2, h1⟩

end RethVerify
